import Mathlib

/-!
Verification of the urkel tree synchronization / proof-extraction layer
(`go/storage/mkvs/urkel/sync.go`): the read API `GetSubtree`, `GetPath` and
`GetNode` over a Merkleized Patricia trie with path-label compaction, and the
two recursive proof-extraction algorithms `doGetSubtree` and `doGetPath`.

The embedding translates `sync.go` directly.  The collaborating packages
(`node`, `syncer`, the `cache`) are not part of the given sources; their data
model and the behaviour of `derefNodeID` / `derefNodePtr` are modelled from
the specification (each such definition is marked `Modelled from the spec:`).

Modelling conventions:
- machine integers (`node.Depth`, indices) are `Nat`;
- byte strings are `List Nat`;
- keys (bit vectors with tracked bit length) are `List Bool`;
- Go's `(value, error)` returns are `Except Err`;
- a Go `context.Context` is reduced to its one observable: whether it has
  been cancelled (`Ctx.cancelled`); `ctx.Err()` is `Err.cancelled`;
- a `*node.Pointer` is `Pointer`: `nil` (no child here), `node n` (resolvable
  to content `n`), or `missing` (not resident and the backing-store/remote
  fetch fails, so dereferencing it errors).
-/

namespace Urkel

/-- Modelled from the spec: a `node.Key` is an ordered bit sequence (not
byte-aligned) whose bit length is tracked, not inferred. -/
abbrev Key := List Bool

/-- Byte strings (leaf values). -/
abbrev Value := List Nat

/-- Modelled from the spec: `Key.BitLength` — the tracked bit length. -/
def Key.bitLength (k : Key) : Nat := k.length

/-- Modelled from the spec: `Key.GetBit` — get the bit at a position
(out-of-range reads as an unset bit). -/
def Key.getBit (k : Key) (i : Nat) : Bool := k.getD i false

/-- Modelled from the spec: `Key.Split` — split into the first `i` bits and
the rest. -/
def Key.split (k : Key) (i : Nat) : Key × Key := (k.take i, k.drop i)

/-- Modelled from the spec: `Key.AppendBit` — append one bit at bit position
`i` (the key is truncated to `i` bits first). -/
def Key.appendBit (k : Key) (i : Nat) (b : Bool) : Key := k.take i ++ [b]

/-- Modelled from the spec: `Key.Merge` — merge a label of the given bit
length at bit position `i`. -/
def Key.merge (k : Key) (i : Nat) (label : Key) (labelLen : Nat) : Key :=
  k.take i ++ label.take labelLen

/-- Modelled from the spec: `node.Root = {Namespace, Round, Hash}` identifies
one committed version of one tree.  The namespace and hash are abstracted to
numbers; only equality of the triple matters to this layer. -/
structure Root where
  ns : Nat
  round : Nat
  hash : Nat
deriving DecidableEq

/-- `node.Root.Equal`: two Roots are equal iff all three fields match. -/
def Root.Equal (a b : Root) : Bool :=
  a.ns == b.ns && a.round == b.round && a.hash == b.hash

/-- `node.ID = {Path, BitDepth}` — addresses a node by the bit path taken from
the root, truncated to `bitDepth` bits. -/
structure ID where
  path : Key
  bitDepth : Nat
deriving DecidableEq

/-- The one observable of a Go `context.Context` in this layer: whether the
caller has cancelled it. -/
structure Ctx where
  cancelled : Bool
deriving DecidableEq

/-- The error taxonomy of the sync layer.  `wrap e` models
`errors.Wrap(e, msg)` (the message is elided; the cause `e` is kept). -/
inductive Err where
  | invalidRoot
  | dirtyRoot
  | nodeNotFound
  | cancelled
  | fatal
  | wrap (e : Err)
deriving DecidableEq

mutual
/-- The two node variants of the tree (`node.InternalNode`,
`node.LeafNode`), modelled from the spec.  An internal node carries the
compressed label shared by everything below it, a colocated leaf child, and
left/right children. -/
inductive Node where
  | internal (label : Key) (labelBitLength : Nat)
      (leafNode : Pointer) (left : Pointer) (right : Pointer)
  | leaf (key : Key) (value : Value)
deriving DecidableEq

/-- Modelled from the spec: a `*node.Pointer` held by a parent.  `nil` means
"no child here"; `node n` is a pointer whose subtree content `n` is resident
or fetchable; `missing` is a pointer whose content is not resident and whose
backing-store / remote fetch fails, so dereferencing it cannot resolve. -/
inductive Pointer where
  | nil
  | node (n : Node)
  | missing
deriving DecidableEq
end

/-- `node.Node.Extract()` produces the node's verbatim content (a deep copy
stripped of cache bookkeeping); content-wise it is the node itself. -/
def Node.Extract (n : Node) : Node := n

/-- Modelled from the spec: the sentinel `syncer.InvalidSubtreeIndex`
("no node").  Proofs in this development never grow near it, so an honest
index never collides with the sentinel. -/
def InvalidSubtreeIndex : Nat := 65535

/-- `syncer.SubtreePointer = {Index, Full, Valid}` — a reference from a proof
entry (or the proof root) to another entry by index. -/
structure SubtreePointer where
  index : Nat
  full : Bool
  valid : Bool
deriving DecidableEq

/-- `syncer.InternalNodeSummary` — a compact internal-node descriptor:
label, label bit length, and the three child pointers. -/
structure InternalNodeSummary where
  label : Key
  labelBitLength : Nat
  leafNode : SubtreePointer
  left : SubtreePointer
  right : SubtreePointer
deriving DecidableEq

/-- Modelled from the spec: one entry of a Subtree proof — either a summary
or a fully-extracted node verbatim. -/
inductive SubtreeEntry where
  | fullNode (n : Node)
  | summary (s : InternalNodeSummary)
deriving DecidableEq

/-- Modelled from the spec: `syncer.Subtree` — an ordered, append-only,
index-addressed sequence of entries plus a root pointer. -/
structure Subtree where
  root : SubtreePointer := ⟨0, false, false⟩
  entries : List SubtreeEntry := []
deriving DecidableEq

/-- Modelled from the spec: `Subtree.AddFullNode` appends one full-node entry
and returns its index (monotonically increasing, stable). -/
def Subtree.AddFullNode (st : Subtree) (n : Node) : Nat × Subtree :=
  (st.entries.length, { st with entries := st.entries ++ [.fullNode n] })

/-- Modelled from the spec: `Subtree.AddSummary` appends one summary entry
and returns its index. -/
def Subtree.AddSummary (st : Subtree) (s : InternalNodeSummary) : Nat × Subtree :=
  (st.entries.length, { st with entries := st.entries ++ [.summary s] })

/-- Modelled from the spec: the Cache owns the in-memory view of one tree
version: the root it is synchronizing against (`syncRoot`), whether the
pending root is clean (no uncommitted local writes; the clean/dirty state of
pointers is abstracted into this one flag, every modelled `Pointer` being
committed content), and the pending root pointer the walks start from. -/
structure Cache where
  syncRoot : Root
  pendingClean : Bool
  pendingRoot : Pointer
deriving DecidableEq

/-- Modelled from the spec: `cache.derefNodePtr` resolves a Pointer to its
Node, fetching from the backing store or a remote peer when not resident; the
fetch is cancellable (a cancelled context surfaces as the distinguished
cancellation error) and a failed fetch reports `nodeNotFound`.  A nil pointer
resolves to no node, without error.  The `id`/expected-path argument is used
by the real cache only for validation and cheaper fetching, which this model
does not need. -/
def derefNodePtr (ctx : Ctx) (_id : ID) (ptr : Pointer) : Except Err (Option Node) :=
  match ptr with
  | .nil => .ok none
  | .node n => .ok (some n)
  | .missing => if ctx.cancelled then .error .cancelled else .error .nodeNotFound

/-- Modelled from the spec: the walking loop of `cache.derefNodeID` — walk
from the given pointer following the path compaction of internal nodes until
the requested bit depth is reached or a mismatch/absence is found, returning
the target pointer together with the actual bit depth at which it lives
(compressed labels may span several requested bits at once). -/
def derefWalk (ctx : Ctx) (idPath : Key) (idBitDepth : Nat) :
    Pointer → Nat → Except Err (Pointer × Nat)
  | ptr, d =>
    if idBitDepth ≤ d then .ok (ptr, d)
    else match ptr with
      | .nil => .ok (.nil, d)
      | .missing => if ctx.cancelled then .error .cancelled else .error .nodeNotFound
      | .node (.leaf k v) => .ok (.node (.leaf k v), d)
      | .node (.internal label len lf l r) =>
        if idBitDepth ≤ d + len then .ok (.node (.internal label len lf l r), d)
        else if (List.range len).all
            (fun i => Key.getBit idPath (d + i) == Key.getBit label i) then
          if Key.getBit idPath (d + len) then derefWalk ctx idPath idBitDepth r (d + len)
          else derefWalk ctx idPath idBitDepth l (d + len)
        else .ok (.nil, d + len)

/-- Modelled from the spec: `cache.derefNodeID` walks from the pending root. -/
def derefNodeID (ctx : Ctx) (c : Cache) (id : ID) : Except Err (Pointer × Nat) :=
  derefWalk ctx id.path id.bitDepth c.pendingRoot 0

/-- The recursion of `GetSubtree` (`Tree.doGetSubtree` in `sync.go`).  The
`derefNodePtr` step is inlined on the pointer's shape (the context was just
checked, so the cancellation branch of the deref is unreachable here; see
`derefNodePtr_after_ctx_check`): this keeps the definition structurally
recursive so that it evaluates. -/
def doGetSubtree (ctx : Ctx) (ptr : Pointer) (bitDepth : Nat) (path : Key)
    (st : Subtree) (depth : Nat) (maxDepth : Nat) (right : Bool) :
    Except Err (SubtreePointer × Subtree) :=
  -- Abort in case the context is cancelled.
  if ctx.cancelled then .error .cancelled
  else
  -- The id handed to the inlined derefNodePtr (validation-only in the model).
  let _derefId : ID := ⟨Key.appendBit path bitDepth right, bitDepth + 1⟩
  match ptr with
  | .missing => .error .nodeNotFound
  | .nil => .ok (⟨InvalidSubtreeIndex, false, true⟩, st)
  | .node nd =>
    if maxDepth ≤ depth then
      -- Nodes at maxDepth are always full nodes.
      let res := st.AddFullNode nd.Extract
      .ok (⟨res.1, true, true⟩, res.2)
    else match nd with
      | .internal label len lf l r =>
        -- Record internal node summary.
        let path := Key.merge path bitDepth label len
        let newPath := Key.merge path bitDepth label len
        -- Leaf node (colocated leaves do not consume a tree level).
        match doGetSubtree ctx lf (bitDepth + len) newPath st depth maxDepth false with
        | .error e => .error e
        | .ok (leafNodePtr, st) =>
          -- Left subtree.
          match doGetSubtree ctx l (bitDepth + len) newPath st (depth + 1) maxDepth false with
          | .error e => .error e
          | .ok (leftPtr, st) =>
            -- Right subtree.
            match doGetSubtree ctx r (bitDepth + len) newPath st (depth + 1) maxDepth true with
            | .error e => .error e
            | .ok (rightPtr, st) =>
              let res := st.AddSummary ⟨label, len, leafNodePtr, leftPtr, rightPtr⟩
              .ok (⟨res.1, false, true⟩, res.2)
      | .leaf k v =>
        -- All encountered leaves are always full nodes.
        let res := st.AddFullNode (Node.leaf k v).Extract
        .ok (⟨res.1, true, true⟩, res.2)

/-- `Tree.GetSubtree` — retrieves a compressed subtree summary of the given
node under the given root up to the specified depth. -/
def GetSubtree (ctx : Ctx) (t : Cache) (root : Root) (id : ID) (maxDepth : Nat) :
    Except Err Subtree :=
  if ¬ Root.Equal root t.syncRoot then .error .invalidRoot
  else if ¬ t.pendingClean then .error .dirtyRoot
  else
    -- Extract the node that is at the root of the subtree.
    match derefNodeID ctx t id with
    | .error _ => .error .nodeNotFound
    | .ok (subtreeRoot, bd) =>
      -- path corresponds to already navigated prefix of the key up to bd bits.
      let path := (Key.split id.path bd).1
      let st : Subtree := {}
      let right := if id.path.length > 0 then Key.getBit id.path bd else false
      match doGetSubtree ctx subtreeRoot bd path st 0 maxDepth right with
      | .error e => .error (.wrap e)
      | .ok (rootPtr, st) =>
        let st := { st with root := rootPtr }
        if ¬ st.root.valid then .error .invalidRoot
        else .ok st

/-- The recursion of `GetPath` (`Tree.doGetPath` in `sync.go`).  A `nil` Go
key pointer is `none`; the `derefNodePtr` step is inlined exactly as in
`doGetSubtree`. -/
def doGetPath (ctx : Ctx) (ptr : Pointer) (bitDepth : Nat) (path : Key)
    (key : Option Key) (st : Subtree) (right : Bool) :
    Except Err (SubtreePointer × Subtree) :=
  -- Abort in case the context is cancelled.
  if ctx.cancelled then .error .cancelled
  else
  -- extPath, handed to the inlined derefNodePtr (validation-only in the model).
  let _derefId : ID := ⟨Key.appendBit path bitDepth right, bitDepth + 1⟩
  match ptr with
  | .missing => .error .nodeNotFound
  | .nil => .ok (⟨InvalidSubtreeIndex, false, true⟩, st)
  | .node nd =>
    match key with
    | none =>
      -- Off-path nodes are always full nodes.
      let res := st.AddFullNode nd.Extract
      .ok (⟨res.1, true, true⟩, res.2)
    | some key =>
      match nd with
      | .internal label len lf l r =>
        -- Record internal node summary; determine which subtree is off-path.
        let lrKeys : Option Key × Option Key :=
          if bitDepth + len < Key.bitLength key then
            if Key.getBit key (bitDepth + len) then
              -- Left subtree is off-path.
              (none, some key)
            else
              -- Right subtree is off-path.
              (some key, none)
          else (none, none)
        let newPath := Key.merge path bitDepth label len
        -- Leaf node: always followed, with the navigated path as its key.
        match doGetPath ctx lf (bitDepth + len) newPath (some newPath) st false with
        | .error e => .error e
        | .ok (leafNodePtr, st) =>
          -- Left subtree.
          match doGetPath ctx l (bitDepth + len) newPath lrKeys.1 st false with
          | .error e => .error e
          | .ok (leftPtr, st) =>
            -- Right subtree.
            match doGetPath ctx r (bitDepth + len) newPath lrKeys.2 st true with
            | .error e => .error e
            | .ok (rightPtr, st) =>
              let res := st.AddSummary ⟨label, len, leafNodePtr, leftPtr, rightPtr⟩
              .ok (⟨res.1, false, true⟩, res.2)
      | .leaf k v =>
        -- All encountered leaves are always full nodes.
        let res := st.AddFullNode (Node.leaf k v).Extract
        .ok (⟨res.1, true, true⟩, res.2)

/-- `Tree.GetPath` — retrieves a compressed path summary for the given key
under the given root, starting at the given bit depth. -/
def GetPath (ctx : Ctx) (t : Cache) (root : Root) (key : Key) (startBitDepth : Nat) :
    Except Err Subtree :=
  if ¬ Root.Equal root t.syncRoot then .error .invalidRoot
  else if ¬ t.pendingClean then .error .dirtyRoot
  else
    match derefNodeID ctx t ⟨key, startBitDepth⟩ with
    | .error _ => .error .nodeNotFound
    | .ok (subtreeRoot, bd) =>
      let right := if key.length > 0 then Key.getBit key bd else false
      -- path corresponds to already navigated prefix of the key up to bd bits.
      let path := (Key.split key bd).1
      let st : Subtree := {}
      match doGetPath ctx subtreeRoot bd path (some key) st right with
      | .error e => .error (.wrap e)
      | .ok (rootPtr, st) =>
        let st := { st with root := rootPtr }
        if ¬ st.root.valid then .error .invalidRoot
        else .ok st

/-- `Tree.GetNode` — retrieves a specific node under the given root.  In the
Go source a nil node resolved without error would be dereferenced
(`nd.Extract()`) and crash; that is `Err.fatal` here (a programming-invariant
violation, per the spec fatal rather than a recoverable error). -/
def GetNode (ctx : Ctx) (t : Cache) (root : Root) (id : ID) : Except Err Node :=
  if ¬ Root.Equal root t.syncRoot then .error .invalidRoot
  else if ¬ t.pendingClean then .error .dirtyRoot
  else
    match derefNodeID ctx t id with
    | .error _ => .error .nodeNotFound
    | .ok (ptr, _) =>
      match derefNodePtr ctx id ptr with
      | .error _ => .error .nodeNotFound
      | .ok none => .error .fatal
      | .ok (some nd) => .ok nd.Extract

end Urkel

namespace Urkel

/- Auxiliary definitions used only to state properties (never by the
algorithms above). -/

/-- Is a proof entry a summary? -/
def isSummary : SubtreeEntry → Bool
  | .summary _ => true
  | .fullNode _ => false

/-- Number of summary entries in an entry list. -/
def numSummaries (es : List SubtreeEntry) : Nat := (es.filter isSummary).length

/-- Well-formed trees: the colocated `leafNode` child of an internal node is
never an internal node (it is a leaf, absent, or unfetchable). -/
def leafish : Pointer → Bool
  | .node (.internal _ _ _ _ _) => false
  | _ => true

/-- Well-formedness of a tree, recursively. -/
def wf : Pointer → Bool
  | .nil => true
  | .missing => true
  | .node (.leaf _ _) => true
  | .node (.internal _ _ lf l r) => leafish lf && wf l && wf r

/-- Modelled from the spec: the number of on-path internal branch points
strictly below the key's resolution depth — the internal nodes met while the
key still guides the descent; the recursion follows the key's bit after each
compressed label and stops when the key is exhausted (its resolution depth)
or the path ends. -/
def onPathBranchPoints : Pointer → Nat → Key → Nat
  | .nil, _, _ => 0
  | .missing, _, _ => 0
  | .node (.leaf _ _), _, _ => 0
  | .node (.internal _ len _ l r), bd, key =>
    1 + (if bd + len < Key.bitLength key then
          (if Key.getBit key (bd + len) then onPathBranchPoints r (bd + len) key
           else onPathBranchPoints l (bd + len) key)
         else 0)

/-- Does a subtree pointer carry a real index (valid and not the sentinel)? -/
def realIndex (p : SubtreePointer) : Bool :=
  p.valid && p.index != InvalidSubtreeIndex

/-- A subtree pointer references strictly below index `i` whenever it carries
a real index. -/
def pointsBelow (p : SubtreePointer) (i : Nat) : Bool :=
  !realIndex p || decide (p.index < i)

/-- An entry sitting at index `i` only references strictly smaller indices. -/
def entryOk (i : Nat) : SubtreeEntry → Bool
  | .fullNode _ => true
  | .summary s => pointsBelow s.leafNode i && pointsBelow s.left i && pointsBelow s.right i

/-- All entries of a list reference strictly below their own position, the
first entry sitting at index `i`. -/
def entriesOkFrom : Nat → List SubtreeEntry → Bool
  | _, [] => true
  | i, e :: es => entryOk i e && entriesOkFrom (i + 1) es

/-- All entries of a proof reference strictly below their own index. -/
def entriesOk (es : List SubtreeEntry) : Bool := entriesOkFrom 0 es

/- ------------------------------------------------------------------ -/
/- Theorems.                                                           -/
/- ------------------------------------------------------------------ -/

/-- Every `doGetSubtree` step checks for cancellation first: under a
cancelled context the recursion aborts immediately with the cancellation
error. -/
theorem doGetSubtree_cancelled (ctx : Ctx) (hc : ctx.cancelled = true)
    (ptr : Pointer) (bitDepth : Nat) (path : Key) (st : Subtree)
    (depth maxDepth : Nat) (right : Bool) :
    doGetSubtree ctx ptr bitDepth path st depth maxDepth right = .error .cancelled := by
  rw [doGetSubtree.eq_def]
  simp [hc]

/-- Every `doGetPath` step checks for cancellation first: under a cancelled
context the recursion aborts immediately with the cancellation error. -/
theorem doGetPath_cancelled (ctx : Ctx) (hc : ctx.cancelled = true)
    (ptr : Pointer) (bitDepth : Nat) (path : Key) (key : Option Key)
    (st : Subtree) (right : Bool) :
    doGetPath ctx ptr bitDepth path key st right = .error .cancelled := by
  rw [doGetPath.eq_def]
  simp [hc]

theorem entriesOkFrom_append (xs : List SubtreeEntry) (n : Nat) (ys : List SubtreeEntry) :
    entriesOkFrom n (xs ++ ys) = (entriesOkFrom n xs && entriesOkFrom (n + xs.length) ys) := by
  induction xs generalizing n with
  | nil => simp [entriesOkFrom]
  | cons e es ih =>
    simp only [List.cons_append, entriesOkFrom, List.length_cons, List.append_eq]
    rw [ih]
    have hn : n + 1 + es.length = n + (es.length + 1) := by omega
    rw [hn, Bool.and_assoc]

theorem pointsBelow_mono (p : SubtreePointer) (i j : Nat) (hij : i ≤ j)
    (h : pointsBelow p i = true) : pointsBelow p j = true := by
  simp only [pointsBelow, Bool.or_eq_true, Bool.not_eq_true, decide_eq_true_eq] at h ⊢
  rcases h with h | h
  · exact Or.inl h
  · exact Or.inr (Nat.lt_of_lt_of_le h hij)

theorem doGetSubtree_inv (ctx : Ctx) (ptr : Pointer) (bitDepth : Nat) (path : Key)
    (st : Subtree) (depth maxDepth : Nat) (right : Bool) :
    ∀ (p : SubtreePointer) (st2 : Subtree),
      doGetSubtree ctx ptr bitDepth path st depth maxDepth right = .ok (p, st2) →
      ∃ d, st2.entries = st.entries ++ d ∧
        entriesOkFrom st.entries.length d = true ∧
        pointsBelow p st2.entries.length = true := by
  induction ptr, bitDepth, path, st, depth, maxDepth, right using doGetSubtree.induct ctx with
  | case1 ptr bitDepth path st depth maxDepth right hc =>
    intro p st2 h
    rw [doGetSubtree_cancelled ctx hc] at h
    exact Except.noConfusion h
  | case2 bitDepth path st depth maxDepth right hc =>
    intro p st2 h
    rw [doGetSubtree.eq_def] at h
    simp [hc] at h
  | case3 bitDepth path st depth maxDepth right hc =>
    intro p st2 h
    rw [doGetSubtree.eq_def] at h
    simp only [hc, if_false, Bool.false_eq_true] at h
    rw [Except.ok.injEq, Prod.mk.injEq] at h
    refine ⟨[], by rw [← h.2]; simp, rfl, ?_⟩
    rw [← h.1]
    simp [pointsBelow, realIndex]
  | case4 bitDepth path st depth maxDepth right hc nd hdep =>
    intro p st2 h
    rw [doGetSubtree.eq_def] at h
    simp only [hc, if_false, Bool.false_eq_true, hdep, if_true, Subtree.AddFullNode] at h
    rw [Except.ok.injEq, Prod.mk.injEq] at h
    refine ⟨[.fullNode nd.Extract], by rw [← h.2], by simp [entriesOkFrom, entryOk], ?_⟩
    rw [← h.1, ← h.2]
    simp [pointsBelow]
  | case5 bitDepth path st depth maxDepth right hc hdep label len lf l r newPath1 newPath e heq1 ih1 =>
    intro p st2 h
    rw [doGetSubtree.eq_def] at h
    simp only [hc, Bool.false_eq_true, if_false, hdep, if_true] at h
    rw [heq1] at h
    simp at h
  | case6 bitDepth path st depth maxDepth right hc hdep label len lf l r newPath1 newPath pLf stA heq1 e heq2 ih1 ih2 =>
    intro p st2 h
    rw [doGetSubtree.eq_def] at h
    simp only [hc, Bool.false_eq_true, if_false, hdep, if_true] at h
    simp only [heq1, heq2] at h
    simp at h
  | case7 bitDepth path st depth maxDepth right hc hdep label len lf l r newPath1 newPath pLf stA heq1 pL stB heq2 e heq3 ih1 ih2 ih3 =>
    intro p st2 h
    rw [doGetSubtree.eq_def] at h
    simp only [hc, Bool.false_eq_true, if_false, hdep, if_true] at h
    simp only [heq1, heq2, heq3] at h
    simp at h
  | case8 bitDepth path st depth maxDepth right hc hdep label len lf l r newPath1 newPath pLf stA heq1 pL stB heq2 pR stC heq3 ih1 ih2 ih3 =>
    intro p st2 h
    rw [doGetSubtree.eq_def] at h
    simp only [hc, Bool.false_eq_true, if_false, hdep, if_true] at h
    simp only [heq1, heq2, heq3] at h
    simp only [Subtree.AddSummary] at h
    rw [Except.ok.injEq, Prod.mk.injEq] at h
    obtain ⟨d1, hd1, hok1, hpb1⟩ := ih1 pLf stA heq1
    obtain ⟨d2, hd2, hok2, hpb2⟩ := ih2 pL stB heq2
    obtain ⟨d3, hd3, hok3, hpb3⟩ := ih3 pR stC heq3
    have hlenA : stA.entries.length = st.entries.length + d1.length := by
      rw [hd1]; simp
    have hlenB : stB.entries.length = stA.entries.length + d2.length := by
      rw [hd2]; simp
    have hlenC : stC.entries.length = stB.entries.length + d3.length := by
      rw [hd3]; simp
    refine ⟨d1 ++ (d2 ++ (d3 ++ [.summary ⟨label, len, pLf, pL, pR⟩])), ?_, ?_, ?_⟩
    · rw [← h.2, hd3, hd2, hd1]
      simp
    · rw [entriesOkFrom_append, entriesOkFrom_append, entriesOkFrom_append]
      rw [hlenA.symm, hlenB.symm, hlenC.symm]
      simp only [entriesOkFrom, entryOk, Bool.and_eq_true, Bool.and_true]
      refine ⟨hok1, hok2, hok3, ⟨?_, ?_⟩, ?_⟩
      · exact pointsBelow_mono _ _ _ (by omega) hpb1
      · exact pointsBelow_mono _ _ _ (by omega) hpb2
      · exact hpb3
    · rw [← h.1, ← h.2]
      simp only [pointsBelow, Bool.or_eq_true, decide_eq_true_eq]
      right
      simp
  | case9 bitDepth path st depth maxDepth right hc hdep k v =>
    intro p st2 h
    rw [doGetSubtree.eq_def] at h
    simp only [hc, Bool.false_eq_true, if_false, hdep, if_true, Subtree.AddFullNode] at h
    rw [Except.ok.injEq, Prod.mk.injEq] at h
    refine ⟨[.fullNode (.leaf k v)], by rw [← h.2]; rfl, by simp [entriesOkFrom, entryOk], ?_⟩
    rw [← h.1, ← h.2]
    simp [pointsBelow]

theorem doGetPath_inv (ctx : Ctx) (ptr : Pointer) (bitDepth : Nat) (path : Key)
    (key : Option Key) (st : Subtree) (right : Bool) :
    ∀ (p : SubtreePointer) (st2 : Subtree),
      doGetPath ctx ptr bitDepth path key st right = .ok (p, st2) →
      ∃ d, st2.entries = st.entries ++ d ∧
        entriesOkFrom st.entries.length d = true ∧
        pointsBelow p st2.entries.length = true := by
  induction ptr, bitDepth, path, key, st, right using doGetPath.induct ctx with
  | case1 ptr bitDepth path key st right hc =>
    intro p st2 h
    rw [doGetPath_cancelled ctx hc] at h
    exact Except.noConfusion h
  | case2 bitDepth path key st right hc =>
    intro p st2 h
    rw [doGetPath.eq_def] at h
    simp [hc] at h
  | case3 bitDepth path key st right hc =>
    intro p st2 h
    rw [doGetPath.eq_def] at h
    simp only [hc, if_false, Bool.false_eq_true] at h
    rw [Except.ok.injEq, Prod.mk.injEq] at h
    refine ⟨[], by rw [← h.2]; simp, rfl, ?_⟩
    rw [← h.1]
    simp [pointsBelow, realIndex]
  | case4 bitDepth path st right hc nd =>
    intro p st2 h
    rw [doGetPath.eq_def] at h
    simp only [hc, if_false, Bool.false_eq_true, Subtree.AddFullNode] at h
    rw [Except.ok.injEq, Prod.mk.injEq] at h
    refine ⟨[.fullNode nd.Extract], by rw [← h.2], by simp [entriesOkFrom, entryOk], ?_⟩
    rw [← h.1, ← h.2]
    simp [pointsBelow]
  | case5 bitDepth path st right hc key label len lf l r newPath e heq1 ih1 =>
    intro p st2 h
    rw [doGetPath.eq_def] at h
    simp only [hc, Bool.false_eq_true, if_false] at h
    simp only [heq1] at h
    simp at h
  | case6 bitDepth path st right hc key label len lf l r lrKeys newPath pLf stA heq1 e heq2 ih1 ih2 =>
    intro p st2 h
    rw [doGetPath.eq_def] at h
    simp only [hc, Bool.false_eq_true, if_false] at h
    simp only [heq1, heq2] at h
    simp at h
  | case7 bitDepth path st right hc key label len lf l r lrKeys newPath pLf stA heq1 pL stB heq2 e heq3 ih1 ih2 ih3 =>
    intro p st2 h
    rw [doGetPath.eq_def] at h
    simp only [hc, Bool.false_eq_true, if_false] at h
    simp only [heq1, heq2, heq3] at h
    simp at h
  | case8 bitDepth path st right hc key label len lf l r lrKeys newPath pLf stA heq1 pL stB heq2 pR stC heq3 ih1 ih2 ih3 =>
    intro p st2 h
    rw [doGetPath.eq_def] at h
    simp only [hc, Bool.false_eq_true, if_false] at h
    simp only [heq1, heq2, heq3] at h
    simp only [Subtree.AddSummary] at h
    rw [Except.ok.injEq, Prod.mk.injEq] at h
    obtain ⟨d1, hd1, hok1, hpb1⟩ := ih1 pLf stA heq1
    obtain ⟨d2, hd2, hok2, hpb2⟩ := ih2 pL stB heq2
    obtain ⟨d3, hd3, hok3, hpb3⟩ := ih3 pR stC heq3
    have hlenA : stA.entries.length = st.entries.length + d1.length := by
      rw [hd1]; simp
    have hlenB : stB.entries.length = stA.entries.length + d2.length := by
      rw [hd2]; simp
    have hlenC : stC.entries.length = stB.entries.length + d3.length := by
      rw [hd3]; simp
    refine ⟨d1 ++ (d2 ++ (d3 ++ [.summary ⟨label, len, pLf, pL, pR⟩])), ?_, ?_, ?_⟩
    · rw [← h.2, hd3, hd2, hd1]
      simp
    · rw [entriesOkFrom_append, entriesOkFrom_append, entriesOkFrom_append]
      rw [hlenA.symm, hlenB.symm, hlenC.symm]
      simp only [entriesOkFrom, entryOk, Bool.and_eq_true, Bool.and_true]
      refine ⟨hok1, hok2, hok3, ⟨?_, ?_⟩, ?_⟩
      · exact pointsBelow_mono _ _ _ (by omega) hpb1
      · exact pointsBelow_mono _ _ _ (by omega) hpb2
      · exact hpb3
    · rw [← h.1, ← h.2]
      simp only [pointsBelow, Bool.or_eq_true, decide_eq_true_eq]
      right
      simp
  | case9 bitDepth path st right hc key k v =>
    intro p st2 h
    rw [doGetPath.eq_def] at h
    simp only [hc, Bool.false_eq_true, if_false, Subtree.AddFullNode] at h
    rw [Except.ok.injEq, Prod.mk.injEq] at h
    refine ⟨[.fullNode (.leaf k v)], by rw [← h.2]; rfl, by simp [entriesOkFrom, entryOk], ?_⟩
    rw [← h.1, ← h.2]
    simp [pointsBelow]

theorem numSummaries_append_full (es : List SubtreeEntry) (n : Node) :
    numSummaries (es ++ [.fullNode n]) = numSummaries es := by
  simp [numSummaries, List.filter_append, isSummary]

theorem numSummaries_append_summary (es : List SubtreeEntry) (s : InternalNodeSummary) :
    numSummaries (es ++ [.summary s]) = numSummaries es + 1 := by
  simp [numSummaries, List.filter_append, isSummary]

theorem leafish_wf (ptr : Pointer) (h : leafish ptr = true) : wf ptr = true := by
  cases ptr with
  | nil => rfl
  | missing => rfl
  | node n =>
    cases n with
    | internal label len lf l r => simp [leafish] at h
    | leaf k v => rfl

theorem leafish_branchPoints (ptr : Pointer) (h : leafish ptr = true) (bd : Nat) (k : Key) :
    onPathBranchPoints ptr bd k = 0 := by
  cases ptr with
  | nil => rfl
  | missing => rfl
  | node n =>
    cases n with
    | internal label len lf l r => simp [leafish] at h
    | leaf kk vv => rfl

theorem doGetPath_offpath (ctx : Ctx) (ptr : Pointer) (bitDepth : Nat) (path : Key)
    (st : Subtree) (right : Bool) (p : SubtreePointer) (st2 : Subtree)
    (h : doGetPath ctx ptr bitDepth path none st right = .ok (p, st2)) :
    (st2.entries = st.entries ∧ p = ⟨InvalidSubtreeIndex, false, true⟩) ∨
    (∃ nd, ptr = .node nd ∧ st2.entries = st.entries ++ [.fullNode nd] ∧
      p = ⟨st.entries.length, true, true⟩) := by
  rw [doGetPath.eq_def] at h
  cases hctx : ctx.cancelled
  · cases ptr <;> simp [hctx, Subtree.AddFullNode, Node.Extract] at h
    · exact Or.inl (by simp_all)
    · exact Or.inr ⟨_, rfl, h.2.symm ▸ rfl, h.1.symm⟩
  · simp [hctx] at h

theorem doGetPath_count (ctx : Ctx) (ptr : Pointer) (bitDepth : Nat) (path : Key)
    (key : Option Key) (st : Subtree) (right : Bool) :
    ∀ (p : SubtreePointer) (st2 : Subtree),
      doGetPath ctx ptr bitDepth path key st right = .ok (p, st2) →
      (key = none → numSummaries st2.entries = numSummaries st.entries) ∧
      (∀ k, key = some k → wf ptr = true →
        numSummaries st2.entries =
          numSummaries st.entries + onPathBranchPoints ptr bitDepth k) := by
  induction ptr, bitDepth, path, key, st, right using doGetPath.induct ctx with
  | case1 ptr bitDepth path key st right hc =>
    intro p st2 h
    rw [doGetPath_cancelled ctx hc] at h
    exact Except.noConfusion h
  | case2 bitDepth path key st right hc =>
    intro p st2 h
    rw [doGetPath.eq_def] at h
    simp [hc] at h
  | case3 bitDepth path key st right hc =>
    intro p st2 h
    rw [doGetPath.eq_def] at h
    simp only [hc, if_false, Bool.false_eq_true] at h
    rw [Except.ok.injEq, Prod.mk.injEq] at h
    refine ⟨fun _ => by rw [← h.2], fun k hk _ => ?_⟩
    rw [← h.2]
    simp [onPathBranchPoints]
  | case4 bitDepth path st right hc nd =>
    intro p st2 h
    rw [doGetPath.eq_def] at h
    simp only [hc, if_false, Bool.false_eq_true, Subtree.AddFullNode] at h
    rw [Except.ok.injEq, Prod.mk.injEq] at h
    refine ⟨fun _ => ?_, fun k hk _ => Option.noConfusion hk⟩
    rw [← h.2]
    exact numSummaries_append_full st.entries nd.Extract
  | case5 bitDepth path st right hc key label len lf l r newPath e heq1 ih1 =>
    intro p st2 h
    rw [doGetPath.eq_def] at h
    simp only [hc, Bool.false_eq_true, if_false] at h
    simp only [heq1] at h
    simp at h
  | case6 bitDepth path st right hc key label len lf l r lrKeys newPath pLf stA heq1 e heq2 ih1 ih2 =>
    intro p st2 h
    rw [doGetPath.eq_def] at h
    simp only [hc, Bool.false_eq_true, if_false] at h
    simp only [heq1, heq2] at h
    simp at h
  | case7 bitDepth path st right hc key label len lf l r lrKeys newPath pLf stA heq1 pL stB heq2 e heq3 ih1 ih2 ih3 =>
    intro p st2 h
    rw [doGetPath.eq_def] at h
    simp only [hc, Bool.false_eq_true, if_false] at h
    simp only [heq1, heq2, heq3] at h
    simp at h
  | case8 bitDepth path st right hc key label len lf l r lrKeys newPath pLf stA heq1 pL stB heq2 pR stC heq3 ih1 ih2 ih3 =>
    intro p st2 h
    rw [doGetPath.eq_def] at h
    simp only [hc, Bool.false_eq_true, if_false] at h
    simp only [heq1, heq2, heq3] at h
    simp only [Subtree.AddSummary] at h
    rw [Except.ok.injEq, Prod.mk.injEq] at h
    refine ⟨fun hk => Option.noConfusion hk, fun k hk hwf => ?_⟩
    cases hk
    simp only [wf, Bool.and_eq_true] at hwf
    obtain ⟨⟨hlf, hwl⟩, hwr⟩ := hwf
    have hlr : lrKeys = if bitDepth + len < Key.bitLength key then
        (if Key.getBit key (bitDepth + len) then ((none : Option Key), some key)
         else (some key, (none : Option Key)))
      else (none, none) := rfl
    have hA : numSummaries stA.entries = numSummaries st.entries := by
      have hh := (ih1 pLf stA heq1).2 newPath rfl (leafish_wf lf hlf)
      rw [leafish_branchPoints lf hlf, Nat.add_zero] at hh
      exact hh
    have hfin : numSummaries st2.entries = numSummaries stC.entries + 1 := by
      rw [← h.2]
      exact numSummaries_append_summary stC.entries ⟨label, len, pLf, pL, pR⟩
    by_cases hlt : bitDepth + len < Key.bitLength key
    · by_cases hbit : Key.getBit key (bitDepth + len) = true
      · have h1 : lrKeys.1 = none := by rw [hlr, if_pos hlt, if_pos hbit]
        have h2 : lrKeys.2 = some key := by rw [hlr, if_pos hlt, if_pos hbit]
        have hB : numSummaries stB.entries = numSummaries stA.entries :=
          (ih2 pL stB heq2).1 h1
        have hC : numSummaries stC.entries =
            numSummaries stB.entries + onPathBranchPoints r (bitDepth + len) key :=
          (ih3 pR stC heq3).2 key h2 hwr
        rw [hfin, hC, hB, hA]
        simp only [onPathBranchPoints]
        rw [if_pos hlt, if_pos hbit]
        omega
      · have h1 : lrKeys.1 = some key := by rw [hlr, if_pos hlt, if_neg hbit]
        have h2 : lrKeys.2 = none := by rw [hlr, if_pos hlt, if_neg hbit]
        have hB : numSummaries stB.entries =
            numSummaries stA.entries + onPathBranchPoints l (bitDepth + len) key :=
          (ih2 pL stB heq2).2 key h1 hwl
        have hC : numSummaries stC.entries = numSummaries stB.entries :=
          (ih3 pR stC heq3).1 h2
        rw [hfin, hC, hB, hA]
        simp only [onPathBranchPoints]
        rw [if_pos hlt, if_neg hbit]
        omega
    · have h1 : lrKeys.1 = none := by rw [hlr, if_neg hlt]
      have h2 : lrKeys.2 = none := by rw [hlr, if_neg hlt]
      have hB : numSummaries stB.entries = numSummaries stA.entries :=
        (ih2 pL stB heq2).1 h1
      have hC : numSummaries stC.entries = numSummaries stB.entries :=
        (ih3 pR stC heq3).1 h2
      rw [hfin, hC, hB, hA]
      simp only [onPathBranchPoints]
      rw [if_neg hlt]
  | case9 bitDepth path st right hc key k v =>
    intro p st2 h
    rw [doGetPath.eq_def] at h
    simp only [hc, Bool.false_eq_true, if_false, Subtree.AddFullNode] at h
    rw [Except.ok.injEq, Prod.mk.injEq] at h
    refine ⟨fun hk => Option.noConfusion hk, fun kk hk _ => ?_⟩
    rw [← h.2]
    rw [numSummaries_append_full st.entries (Node.leaf k v).Extract]
    simp [onPathBranchPoints]

/-- Once the recursion's cancellation check has passed, `derefNodePtr` is
exactly the pointer-shape case split inlined in `doGetSubtree`/`doGetPath`. -/
theorem derefNodePtr_after_ctx_check (ctx : Ctx) (id : ID) (ptr : Pointer)
    (hc : ctx.cancelled = false) :
    derefNodePtr ctx id ptr =
      match ptr with
      | .nil => .ok none
      | .node n => .ok (some n)
      | .missing => .error .nodeNotFound := by
  cases ptr <;> simp [derefNodePtr, hc]

/-- C6: the root-match gate.  If the supplied root differs from the tracked
sync root, all three calls fail with `ErrInvalidRoot`; the statement holds
for every context (even a cancelled one) and every cache content (even one
whose nodes cannot be fetched), which is how a pure model expresses that the
gate fires before any dereferencing and leaves the cache untouched. -/
theorem c6_root_match_gate (ctx : Ctx) (t : Cache) (root : Root) (id : ID)
    (maxDepth : Nat) (key : Key) (startBitDepth : Nat)
    (h : Root.Equal root t.syncRoot = false) :
    GetSubtree ctx t root id maxDepth = .error .invalidRoot ∧
    GetPath ctx t root key startBitDepth = .error .invalidRoot ∧
    GetNode ctx t root id = .error .invalidRoot := by
  refine ⟨?_, ?_, ?_⟩ <;> simp [GetSubtree, GetPath, GetNode, h]

/-- Witness for C6 at a concrete mismatched root, dirty cache, cancelled
context and unfetchable tree. -/
theorem c6_witness :
    Root.Equal ⟨1, 2, 4⟩ (Cache.syncRoot ⟨⟨1, 2, 3⟩, false, .missing⟩) = false ∧
    (GetSubtree ⟨true⟩ ⟨⟨1, 2, 3⟩, false, .missing⟩ ⟨1, 2, 4⟩ ⟨[], 0⟩ 1 = .error .invalidRoot ∧
     GetPath ⟨true⟩ ⟨⟨1, 2, 3⟩, false, .missing⟩ ⟨1, 2, 4⟩ [] 0 = .error .invalidRoot ∧
     GetNode ⟨true⟩ ⟨⟨1, 2, 3⟩, false, .missing⟩ ⟨1, 2, 4⟩ ⟨[], 0⟩ = .error .invalidRoot) :=
  ⟨by decide,
   c6_root_match_gate ⟨true⟩ ⟨⟨1, 2, 3⟩, false, .missing⟩ ⟨1, 2, 4⟩ ⟨[], 0⟩ 1 [] 0 (by decide)⟩

/-- C2 counterexample: with a non-clean pending state *and* a mismatched
root, every call returns `ErrInvalidRoot`, not `ErrDirtyRoot` — the
root-match check runs first, so the dirty gate does not fire "regardless of
root correctness" as the claim states. -/
theorem c2_counterexample :
    GetSubtree ⟨false⟩ ⟨⟨1, 2, 3⟩, false, .nil⟩ ⟨1, 2, 4⟩ ⟨[], 0⟩ 1 = .error .invalidRoot ∧
    GetPath ⟨false⟩ ⟨⟨1, 2, 3⟩, false, .nil⟩ ⟨1, 2, 4⟩ [] 0 = .error .invalidRoot ∧
    GetNode ⟨false⟩ ⟨⟨1, 2, 3⟩, false, .nil⟩ ⟨1, 2, 4⟩ ⟨[], 0⟩ = .error .invalidRoot ∧
    Err.invalidRoot ≠ Err.dirtyRoot :=
  ⟨rfl, rfl, rfl, by decide⟩

/-- C2 (amended): the dirty gate.  If the pending state is non-clean and the
supplied root does match the tracked sync root, all three calls fail with
`ErrDirtyRoot` (when the root also mismatches, `ErrInvalidRoot` wins). -/
theorem c2_amended_dirty_gate (ctx : Ctx) (t : Cache) (root : Root) (id : ID)
    (maxDepth : Nat) (key : Key) (startBitDepth : Nat)
    (h1 : Root.Equal root t.syncRoot = true) (h2 : t.pendingClean = false) :
    GetSubtree ctx t root id maxDepth = .error .dirtyRoot ∧
    GetPath ctx t root key startBitDepth = .error .dirtyRoot ∧
    GetNode ctx t root id = .error .dirtyRoot := by
  refine ⟨?_, ?_, ?_⟩ <;> simp [GetSubtree, GetPath, GetNode, h1, h2]

/-- Witness for C2 (amended) at a concrete dirty cache with a matching
root. -/
theorem c2_witness :
    Root.Equal ⟨1, 2, 3⟩ (Cache.syncRoot ⟨⟨1, 2, 3⟩, false, .nil⟩) = true ∧
    Cache.pendingClean ⟨⟨1, 2, 3⟩, false, .nil⟩ = false ∧
    (GetSubtree ⟨false⟩ ⟨⟨1, 2, 3⟩, false, .nil⟩ ⟨1, 2, 3⟩ ⟨[], 0⟩ 1 = .error .dirtyRoot ∧
     GetPath ⟨false⟩ ⟨⟨1, 2, 3⟩, false, .nil⟩ ⟨1, 2, 3⟩ [] 0 = .error .dirtyRoot ∧
     GetNode ⟨false⟩ ⟨⟨1, 2, 3⟩, false, .nil⟩ ⟨1, 2, 3⟩ ⟨[], 0⟩ = .error .dirtyRoot) :=
  ⟨by decide, by decide,
   c2_amended_dirty_gate ⟨false⟩ ⟨⟨1, 2, 3⟩, false, .nil⟩ ⟨1, 2, 3⟩ ⟨[], 0⟩ 1 [] 0
     (by decide) (by decide)⟩

/-- C9: the concrete scenario.  On a tree holding exactly one leaf at key
`"0"` (byte `0x30`, most-significant bit first) with value `"v0"` (bytes
`0x76 0x30`), `GetSubtree(root, {Path: [], BitDepth: 0}, 10)` succeeds with a
proof containing exactly one entry — that leaf as a full node carrying the
value — and a root pointer that is valid, full, and references index 0. -/
theorem c9_concrete_scenario :
    GetSubtree ⟨false⟩
        ⟨⟨1, 2, 3⟩, true,
         .node (.leaf [false, false, true, true, false, false, false, false] [118, 48])⟩
        ⟨1, 2, 3⟩ ⟨[], 0⟩ 10 =
      .ok ⟨⟨0, true, true⟩,
           [.fullNode (.leaf [false, false, true, true, false, false, false, false] [118, 48])]⟩ :=
  rfl

/-- C3 counterexample: a cancelled caller context is not always surfaced.
With a cancelled context and a tree whose root node needs a (cancellable)
fetch, `GetNode` — which performs no cancellation check of its own — maps the
dereference failure to `ErrNodeNotFound`, masking the cancellation: the
underlying `derefNodePtr` reports `Err.cancelled`, yet the call returns
`ErrNodeNotFound`.  Moreover on a fully resident tree `GetNode` under a
cancelled context simply succeeds instead of aborting. -/
theorem c3_counterexample :
    GetNode ⟨true⟩ ⟨⟨1, 2, 3⟩, true, .missing⟩ ⟨1, 2, 3⟩ ⟨[], 0⟩ = .error .nodeNotFound ∧
    derefNodePtr ⟨true⟩ ⟨[], 0⟩ .missing = .error .cancelled ∧
    Err.nodeNotFound ≠ Err.cancelled ∧
    GetNode ⟨true⟩ ⟨⟨1, 2, 3⟩, true, .node (.leaf [] [])⟩ ⟨1, 2, 3⟩ ⟨[], 0⟩ =
      .ok (.leaf [] []) :=
  ⟨rfl, rfl, by decide, rfl⟩

/-- C3 (amended): inside the two proof recursions a cancelled context is
surfaced immediately — `doGetSubtree` and `doGetPath` fail with the
cancellation error before dereferencing, and `GetSubtree`/`GetPath` surface
it (wrapped, cause preserved) whenever the initial `derefNodeID` step
succeeded.  (Errors of that initial step, and all of `GetNode`'s dereference
errors, are instead returned as `ErrNodeNotFound`.) -/
theorem c3_amended_cancellation :
    (∀ (ptr : Pointer) (bitDepth : Nat) (path : Key) (st : Subtree)
       (depth maxDepth : Nat) (right : Bool),
      doGetSubtree ⟨true⟩ ptr bitDepth path st depth maxDepth right = .error .cancelled) ∧
    (∀ (ptr : Pointer) (bitDepth : Nat) (path : Key) (key : Option Key)
       (st : Subtree) (right : Bool),
      doGetPath ⟨true⟩ ptr bitDepth path key st right = .error .cancelled) ∧
    (∀ (t : Cache) (root : Root) (id : ID) (maxDepth : Nat) (pr : Pointer) (bd : Nat),
      Root.Equal root t.syncRoot = true → t.pendingClean = true →
      derefNodeID ⟨true⟩ t id = .ok (pr, bd) →
      GetSubtree ⟨true⟩ t root id maxDepth = .error (.wrap .cancelled)) ∧
    (∀ (t : Cache) (root : Root) (key : Key) (startBitDepth : Nat) (pr : Pointer) (bd : Nat),
      Root.Equal root t.syncRoot = true → t.pendingClean = true →
      derefNodeID ⟨true⟩ t ⟨key, startBitDepth⟩ = .ok (pr, bd) →
      GetPath ⟨true⟩ t root key startBitDepth = .error (.wrap .cancelled)) := by
  refine ⟨doGetSubtree_cancelled ⟨true⟩ rfl,
          doGetPath_cancelled ⟨true⟩ rfl,
          fun t root id maxDepth pr bd h1 h2 h3 => ?_,
          fun t root key startBitDepth pr bd h1 h2 h3 => ?_⟩
  · simp [GetSubtree, h1, h2, h3, doGetSubtree_cancelled ⟨true⟩ rfl]
  · simp [GetPath, h1, h2, h3, doGetPath_cancelled ⟨true⟩ rfl]

/-- Witness for C3 (amended) at concrete inputs. -/
theorem c3_witness :
    doGetSubtree ⟨true⟩ .nil 0 [] {} 0 1 false = .error .cancelled ∧
    doGetPath ⟨true⟩ .nil 0 [] none {} false = .error .cancelled ∧
    GetSubtree ⟨true⟩ ⟨⟨1, 2, 3⟩, true, .nil⟩ ⟨1, 2, 3⟩ ⟨[], 0⟩ 1 = .error (.wrap .cancelled) ∧
    GetPath ⟨true⟩ ⟨⟨1, 2, 3⟩, true, .nil⟩ ⟨1, 2, 3⟩ [] 0 = .error (.wrap .cancelled) :=
  ⟨c3_amended_cancellation.1 .nil 0 [] {} 0 1 false,
   c3_amended_cancellation.2.1 .nil 0 [] none {} false,
   c3_amended_cancellation.2.2.1 ⟨⟨1, 2, 3⟩, true, .nil⟩ ⟨1, 2, 3⟩ ⟨[], 0⟩ 1 .nil 0
     (by decide) (by decide) rfl,
   c3_amended_cancellation.2.2.2 ⟨⟨1, 2, 3⟩, true, .nil⟩ ⟨1, 2, 3⟩ [] 0 .nil 0
     (by decide) (by decide) rfl⟩

/-- C4: depth truncation.  A `doGetSubtree` call whose recursion depth has
reached `maxDepth` emits no summary whatsoever: either the pointer is empty
(no entry, absence pointer), or the node — internal nodes included — is
appended as a single full-node entry with a full, valid pointer to it.  Since
such a call does not recurse, no entry at all (in particular no summary) is
ever emitted at recursion depth greater than `maxDepth`. -/
theorem c4_depth_truncation (ctx : Ctx) (ptr : Pointer) (bitDepth : Nat) (path : Key)
    (st : Subtree) (depth maxDepth : Nat) (right : Bool) (p : SubtreePointer) (st' : Subtree)
    (hd : maxDepth ≤ depth)
    (h : doGetSubtree ctx ptr bitDepth path st depth maxDepth right = .ok (p, st')) :
    (st'.entries = st.entries ∧ p = ⟨InvalidSubtreeIndex, false, true⟩) ∨
    (∃ nd, ptr = .node nd ∧ st'.entries = st.entries ++ [.fullNode nd] ∧
      p = ⟨st.entries.length, true, true⟩) := by
  rw [doGetSubtree.eq_def] at h
  cases hctx : ctx.cancelled
  · cases ptr <;> simp [hctx, hd, Subtree.AddFullNode, Node.Extract] at h
    · exact Or.inl (by simp_all)
    · exact Or.inr ⟨_, rfl, h.2.symm ▸ rfl, h.1.symm⟩
  · simp [hctx] at h

/-- Witness for C4: an internal node met at recursion depth `= maxDepth = 0`
is emitted as a full node. -/
theorem c4_witness :
    (⟨⟨0, false, false⟩, [.fullNode (.internal [] 1 .nil .nil .nil)]⟩ : Subtree).entries =
        (⟨⟨0, false, false⟩, []⟩ : Subtree).entries ∧
      (⟨0, true, true⟩ : SubtreePointer) = ⟨InvalidSubtreeIndex, false, true⟩ ∨
    (∃ nd, (Pointer.node (.internal [] 1 .nil .nil .nil)) = .node nd ∧
      (⟨⟨0, false, false⟩, [.fullNode (.internal [] 1 .nil .nil .nil)]⟩ : Subtree).entries =
        (⟨⟨0, false, false⟩, []⟩ : Subtree).entries ++ [.fullNode nd] ∧
      (⟨0, true, true⟩ : SubtreePointer) =
        ⟨(⟨⟨0, false, false⟩, []⟩ : Subtree).entries.length, true, true⟩) :=
  c4_depth_truncation ⟨false⟩ (.node (.internal [] 1 .nil .nil .nil)) 0 []
    ⟨⟨0, false, false⟩, []⟩ 0 0 false ⟨0, true, true⟩
    ⟨⟨0, false, false⟩, [.fullNode (.internal [] 1 .nil .nil .nil)]⟩
    (Nat.le_refl 0) rfl

/-- C7: leaves are always full.  Whenever either recursion dereferences a
pointer to a `LeafNode` — at any depth, with or without a target key — the
call appends that leaf as a single full-node entry and returns a pointer with
`Full == true`; a leaf can never be emitted as a summary (a summary entry
carries an `InternalNodeSummary` and no leaf content at all). -/
theorem c7_leaves_full (ctx : Ctx) (k : Key) (v : Value) (bitDepth : Nat) (path : Key)
    (st : Subtree) (depth maxDepth : Nat) (right : Bool) (key : Option Key)
    (hc : ctx.cancelled = false) :
    doGetSubtree ctx (.node (.leaf k v)) bitDepth path st depth maxDepth right =
      .ok (⟨st.entries.length, true, true⟩,
           { st with entries := st.entries ++ [.fullNode (.leaf k v)] }) ∧
    doGetPath ctx (.node (.leaf k v)) bitDepth path key st right =
      .ok (⟨st.entries.length, true, true⟩,
           { st with entries := st.entries ++ [.fullNode (.leaf k v)] }) := by
  constructor
  · by_cases hd : maxDepth ≤ depth <;>
      simp [doGetSubtree, hc, hd, Subtree.AddFullNode, Node.Extract]
  · cases key <;> simp [doGetPath, hc, Subtree.AddFullNode, Node.Extract]

/-- C8: when `doGetSubtree` meets an `InternalNode` below `maxDepth`, it
recurses into the colocated `LeafNode` child at the same recursion depth,
then into `Left` and `Right` at recursion depth + 1 — all three at bit depth
`bitDepth + labelBitLength` on the navigated path — and the three returned
`SubtreePointer`s are stored verbatim in the summary, which is appended
(and its index recorded) only after all its children's entries. -/
theorem c8_summary_children (ctx : Ctx) (label : Key) (len : Nat) (lf l r : Pointer)
    (bitDepth : Nat) (path : Key) (st : Subtree) (depth maxDepth : Nat) (right : Bool)
    (p : SubtreePointer) (st2 : Subtree)
    (hc : ctx.cancelled = false) (hd : depth < maxDepth)
    (h : doGetSubtree ctx (.node (.internal label len lf l r)) bitDepth path st depth
           maxDepth right = .ok (p, st2)) :
    ∃ pLf stA pL stB pR stC,
      doGetSubtree ctx lf (bitDepth + len)
          (Key.merge (Key.merge path bitDepth label len) bitDepth label len)
          st depth maxDepth false = .ok (pLf, stA) ∧
      doGetSubtree ctx l (bitDepth + len)
          (Key.merge (Key.merge path bitDepth label len) bitDepth label len)
          stA (depth + 1) maxDepth false = .ok (pL, stB) ∧
      doGetSubtree ctx r (bitDepth + len)
          (Key.merge (Key.merge path bitDepth label len) bitDepth label len)
          stB (depth + 1) maxDepth true = .ok (pR, stC) ∧
      st2.entries = stC.entries ++ [.summary ⟨label, len, pLf, pL, pR⟩] ∧
      p = ⟨stC.entries.length, false, true⟩ := by
  rw [doGetSubtree.eq_def] at h
  simp only [hc, Bool.false_eq_true, if_false, Nat.not_le.mpr hd] at h
  split at h
  · simp at h
  · rename_i pair1 pLf stA heq1
    split at h
    · simp at h
    · rename_i pair2 pL stB heq2
      split at h
      · simp at h
      · rename_i pair3 pR stC heq3
        simp only [Subtree.AddSummary] at h
        rw [Except.ok.injEq, Prod.mk.injEq] at h
        exact ⟨pLf, stA, pL, stB, pR, stC, heq1, heq2, heq3, h.2.symm ▸ rfl, h.1.symm⟩

/-- Witness for C8: a concrete internal node (colocated leaf, two empty
children) met below `maxDepth`. -/
theorem c8_witness :
    ∃ pLf stA pL stB pR stC,
      doGetSubtree ⟨false⟩ (.node (.leaf [] [1])) (0 + 0)
          (Key.merge (Key.merge [] 0 [] 0) 0 [] 0)
          ⟨⟨0, false, false⟩, []⟩ 0 2 false = .ok (pLf, stA) ∧
      doGetSubtree ⟨false⟩ .nil (0 + 0)
          (Key.merge (Key.merge [] 0 [] 0) 0 [] 0)
          stA (0 + 1) 2 false = .ok (pL, stB) ∧
      doGetSubtree ⟨false⟩ .nil (0 + 0)
          (Key.merge (Key.merge [] 0 [] 0) 0 [] 0)
          stB (0 + 1) 2 true = .ok (pR, stC) ∧
      (⟨⟨0, false, false⟩,
        [.fullNode (.leaf [] [1]),
         .summary ⟨[], 0, ⟨0, true, true⟩, ⟨InvalidSubtreeIndex, false, true⟩,
                   ⟨InvalidSubtreeIndex, false, true⟩⟩]⟩ : Subtree).entries =
        stC.entries ++ [.summary ⟨[], 0, pLf, pL, pR⟩] ∧
      (⟨1, false, true⟩ : SubtreePointer) = ⟨stC.entries.length, false, true⟩ :=
  c8_summary_children ⟨false⟩ [] 0 (.node (.leaf [] [1])) .nil .nil 0 []
    ⟨⟨0, false, false⟩, []⟩ 0 2 false ⟨1, false, true⟩
    ⟨⟨0, false, false⟩,
     [.fullNode (.leaf [] [1]),
      .summary ⟨[], 0, ⟨0, true, true⟩, ⟨InvalidSubtreeIndex, false, true⟩,
                ⟨InvalidSubtreeIndex, false, true⟩⟩]⟩
    rfl (by decide) rfl

/-- `doGetSubtree` returns a `Valid == true` pointer on every success path
(absence, full node, or summary alike). -/
theorem doGetSubtree_ok_valid (ctx : Ctx) (ptr : Pointer) (bitDepth : Nat) (path : Key)
    (st : Subtree) (depth maxDepth : Nat) (right : Bool) (p : SubtreePointer) (st' : Subtree)
    (h : doGetSubtree ctx ptr bitDepth path st depth maxDepth right = .ok (p, st')) :
    p.valid = true := by
  rw [doGetSubtree.eq_def] at h
  split at h
  case isTrue => exact Except.noConfusion h
  case isFalse =>
  split at h
  case h_1 => exact Except.noConfusion h
  case h_2 => rw [Except.ok.injEq, Prod.mk.injEq] at h; rw [← h.1]
  case h_3 nd =>
  split at h
  case isTrue =>
    simp only [Subtree.AddFullNode] at h
    rw [Except.ok.injEq, Prod.mk.injEq] at h; rw [← h.1]
  case isFalse =>
  split at h
  case h_2 k v =>
    simp only [Subtree.AddFullNode] at h
    rw [Except.ok.injEq, Prod.mk.injEq] at h; rw [← h.1]
  case h_1 label len lf l r =>
  simp only [] at h
  split at h
  case h_1 => exact Except.noConfusion h
  case h_2 pLf stA heq1 =>
  split at h
  case h_1 => exact Except.noConfusion h
  case h_2 pL stB heq2 =>
  split at h
  case h_1 => exact Except.noConfusion h
  case h_2 pR stC heq3 =>
    simp only [Subtree.AddSummary] at h
    rw [Except.ok.injEq, Prod.mk.injEq] at h; rw [← h.1]

/-- `doGetPath` returns a `Valid == true` pointer on every success path. -/
theorem doGetPath_ok_valid (ctx : Ctx) (ptr : Pointer) (bitDepth : Nat) (path : Key)
    (key : Option Key) (st : Subtree) (right : Bool) (p : SubtreePointer) (st' : Subtree)
    (h : doGetPath ctx ptr bitDepth path key st right = .ok (p, st')) :
    p.valid = true := by
  rw [doGetPath.eq_def] at h
  split at h
  case isTrue => exact Except.noConfusion h
  case isFalse =>
  split at h
  case h_1 => exact Except.noConfusion h
  case h_2 => rw [Except.ok.injEq, Prod.mk.injEq] at h; rw [← h.1]
  case h_3 nd =>
  split at h
  case h_1 =>
    simp only [Subtree.AddFullNode] at h
    rw [Except.ok.injEq, Prod.mk.injEq] at h; rw [← h.1]
  case h_2 k =>
  split at h
  case h_2 kk vv =>
    simp only [Subtree.AddFullNode] at h
    rw [Except.ok.injEq, Prod.mk.injEq] at h; rw [← h.1]
  case h_1 label len lf l r =>
  simp only [] at h
  split at h
  case h_1 => exact Except.noConfusion h
  case h_2 pLf stA heq1 =>
  split at h
  case h_1 => exact Except.noConfusion h
  case h_2 pL stB heq2 =>
  split at h
  case h_1 => exact Except.noConfusion h
  case h_2 pR stC heq3 =>
    simp only [Subtree.AddSummary] at h
    rw [Except.ok.injEq, Prod.mk.injEq] at h; rw [← h.1]

/-- C1 counterexample: the empty tree — the requested subtree/path (the tree
root itself) does not exist under the matching, clean root, yet both calls
*succeed*, returning a proof whose root `SubtreePointer` has
`Index == InvalidSubtreeIndex` and `Valid == true`; neither a
`Valid == false` root pointer nor `ErrInvalidRoot` is produced. -/
theorem c1_counterexample :
    GetSubtree ⟨false⟩ ⟨⟨1, 2, 3⟩, true, .nil⟩ ⟨1, 2, 3⟩ ⟨[], 0⟩ 1 =
      .ok ⟨⟨InvalidSubtreeIndex, false, true⟩, []⟩ ∧
    GetPath ⟨false⟩ ⟨⟨1, 2, 3⟩, true, .nil⟩ ⟨1, 2, 3⟩ [] 0 =
      .ok ⟨⟨InvalidSubtreeIndex, false, true⟩, []⟩ ∧
    (⟨InvalidSubtreeIndex, false, true⟩ : SubtreePointer).valid = true :=
  ⟨rfl, rfl, rfl⟩

/-- C1 (amended): on success the recursions always return a pointer with
`Valid == true` — absence of the requested target at a nil pointer is encoded
as a *successful* `{Index: InvalidSubtreeIndex, Valid: true}` pointer, not as
a `Valid == false` pointer — and consequently any successful
`GetSubtree`/`GetPath` proof has a `Valid == true` root, so the
`ErrInvalidRoot`-on-invalid-root-pointer branch of both calls is
unreachable.  (A failing initial dereference surfaces as `ErrNodeNotFound`
instead.) -/
theorem c1_amended_root_valid :
    (∀ (ctx : Ctx) (ptr : Pointer) (bitDepth : Nat) (path : Key) (st : Subtree)
       (depth maxDepth : Nat) (right : Bool) (p : SubtreePointer) (st' : Subtree),
      doGetSubtree ctx ptr bitDepth path st depth maxDepth right = .ok (p, st') →
      p.valid = true) ∧
    (∀ (ctx : Ctx) (ptr : Pointer) (bitDepth : Nat) (path : Key) (key : Option Key)
       (st : Subtree) (right : Bool) (p : SubtreePointer) (st' : Subtree),
      doGetPath ctx ptr bitDepth path key st right = .ok (p, st') →
      p.valid = true) ∧
    (∀ (ctx : Ctx) (bitDepth : Nat) (path : Key) (st : Subtree)
       (depth maxDepth : Nat) (right : Bool),
      ctx.cancelled = false →
      doGetSubtree ctx .nil bitDepth path st depth maxDepth right =
        .ok (⟨InvalidSubtreeIndex, false, true⟩, st)) ∧
    (∀ (ctx : Ctx) (bitDepth : Nat) (path : Key) (key : Option Key)
       (st : Subtree) (right : Bool),
      ctx.cancelled = false →
      doGetPath ctx .nil bitDepth path key st right =
        .ok (⟨InvalidSubtreeIndex, false, true⟩, st)) ∧
    (∀ (ctx : Ctx) (t : Cache) (root : Root) (id : ID) (maxDepth : Nat) (st : Subtree),
      GetSubtree ctx t root id maxDepth = .ok st → st.root.valid = true) ∧
    (∀ (ctx : Ctx) (t : Cache) (root : Root) (key : Key) (startBitDepth : Nat) (st : Subtree),
      GetPath ctx t root key startBitDepth = .ok st → st.root.valid = true) := by
  refine ⟨doGetSubtree_ok_valid, doGetPath_ok_valid,
          fun ctx bitDepth path st depth maxDepth right hc => by
            rw [doGetSubtree.eq_def]; simp [hc],
          fun ctx bitDepth path key st right hc => by
            rw [doGetPath.eq_def]; simp [hc],
          fun ctx t root id maxDepth st h => ?_,
          fun ctx t root key startBitDepth st h => ?_⟩
  · rw [GetSubtree] at h
    split at h
    all_goals try split at h
    all_goals try split at h
    all_goals try simp only [] at h
    all_goals try split at h
    all_goals try split at h
    all_goals first
      | exact Except.noConfusion h
      | (rw [Except.ok.injEq] at h
         rw [← h]
         simp_all)
  · rw [GetPath] at h
    split at h
    all_goals try split at h
    all_goals try split at h
    all_goals try simp only [] at h
    all_goals try split at h
    all_goals try split at h
    all_goals first
      | exact Except.noConfusion h
      | (rw [Except.ok.injEq] at h
         rw [← h]
         simp_all)

/-- Witness for C1 (amended) at concrete inputs: the single-leaf success,
the absence success, and top-level successes. -/
theorem c1_witness :
    SubtreePointer.valid ⟨0, true, true⟩ = true ∧
    SubtreePointer.valid ⟨InvalidSubtreeIndex, false, true⟩ = true ∧
    doGetSubtree ⟨false⟩ .nil 0 [] ⟨⟨0, false, false⟩, []⟩ 0 1 false =
      .ok (⟨InvalidSubtreeIndex, false, true⟩, ⟨⟨0, false, false⟩, []⟩) ∧
    doGetPath ⟨false⟩ .nil 0 [] none ⟨⟨0, false, false⟩, []⟩ false =
      .ok (⟨InvalidSubtreeIndex, false, true⟩, ⟨⟨0, false, false⟩, []⟩) ∧
    (Subtree.root ⟨⟨InvalidSubtreeIndex, false, true⟩, []⟩).valid = true :=
  ⟨c1_amended_root_valid.1 ⟨false⟩ (.node (.leaf [] [1])) 0 [] ⟨⟨0, false, false⟩, []⟩ 0 1
     false ⟨0, true, true⟩ ⟨⟨0, false, false⟩, [.fullNode (.leaf [] [1])]⟩ rfl,
   c1_amended_root_valid.2.1 ⟨false⟩ .nil 0 [] none ⟨⟨0, false, false⟩, []⟩ false
     ⟨InvalidSubtreeIndex, false, true⟩ ⟨⟨0, false, false⟩, []⟩ rfl,
   c1_amended_root_valid.2.2.1 ⟨false⟩ 0 [] ⟨⟨0, false, false⟩, []⟩ 0 1 false rfl,
   c1_amended_root_valid.2.2.2.1 ⟨false⟩ 0 [] none ⟨⟨0, false, false⟩, []⟩ false rfl,
   c1_amended_root_valid.2.2.2.2.1 ⟨false⟩ ⟨⟨1, 2, 3⟩, true, .nil⟩ ⟨1, 2, 3⟩ ⟨[], 0⟩ 1
     ⟨⟨InvalidSubtreeIndex, false, true⟩, []⟩ rfl⟩

/-- Witness for C7 at a concrete leaf, inside both recursions. -/
theorem c7_witness :
    doGetSubtree ⟨false⟩ (.node (.leaf [true] [7])) 0 [] ⟨⟨0, false, false⟩, []⟩ 0 5 false =
      .ok (⟨0, true, true⟩, ⟨⟨0, false, false⟩, [.fullNode (.leaf [true] [7])]⟩) ∧
    doGetPath ⟨false⟩ (.node (.leaf [true] [7])) 0 [] (some [true]) ⟨⟨0, false, false⟩, []⟩ false =
      .ok (⟨0, true, true⟩, ⟨⟨0, false, false⟩, [.fullNode (.leaf [true] [7])]⟩) :=
  c7_leaves_full ⟨false⟩ [true] [7] 0 [] ⟨⟨0, false, false⟩, []⟩ 0 5 false (some [true]) rfl

/-- C10: post-order emission.  In every proof returned by `GetSubtree` or
`GetPath`, entries are appended children-first: `entriesOk` checks that for
every `InternalNodeSummary` entry, each of its three child `SubtreePointer`s
that carries a real index (`Valid == true` and `Index != InvalidSubtreeIndex`)
references an entry at a strictly smaller index than the summary's own, so no
pointer ever references a not-yet-appended entry. -/
theorem c10_postorder_indices :
    (∀ (ctx : Ctx) (t : Cache) (root : Root) (id : ID) (maxDepth : Nat) (st : Subtree),
      GetSubtree ctx t root id maxDepth = .ok st → entriesOk st.entries = true) ∧
    (∀ (ctx : Ctx) (t : Cache) (root : Root) (key : Key) (startBitDepth : Nat) (st : Subtree),
      GetPath ctx t root key startBitDepth = .ok st → entriesOk st.entries = true) := by
  constructor
  · intro ctx t root id maxDepth st h
    rw [GetSubtree] at h
    split at h
    all_goals try split at h
    all_goals try split at h
    all_goals try simp only [] at h
    all_goals try split at h
    all_goals try split at h
    all_goals first
      | exact Except.noConfusion h
      | (rename_i rootPtr stX hdo hval
         rw [Except.ok.injEq] at h
         obtain ⟨d, hd, hok, hpb⟩ := doGetSubtree_inv ctx _ _ _ _ _ _ _ _ _ hdo
         rw [← h]
         simp only [entriesOk]
         simp only [List.nil_append] at hd
         rw [hd]
         simpa using hok)
  · intro ctx t root key startBitDepth st h
    rw [GetPath] at h
    split at h
    all_goals try split at h
    all_goals try split at h
    all_goals try simp only [] at h
    all_goals try split at h
    all_goals try split at h
    all_goals first
      | exact Except.noConfusion h
      | (rename_i rootPtr stX hdo hval
         rw [Except.ok.injEq] at h
         obtain ⟨d, hd, hok, hpb⟩ := doGetPath_inv ctx _ _ _ _ _ _ _ _ hdo
         rw [← h]
         simp only [entriesOk]
         simp only [List.nil_append] at hd
         rw [hd]
         simpa using hok)

/-- C5: path minimality.  (a) Every off-path sibling (a `doGetPath` call
carrying no target key) is emitted as a single full node — never a summary —
or as an absence pointer.  (b) For `GetPath(root, key, 0)` on a well-formed
tree, the number of summary entries in the proof equals the number of on-path
internal branch points strictly below the key's resolution depth
(`onPathBranchPoints`). -/
theorem c5_path_minimality :
    (∀ (ctx : Ctx) (ptr : Pointer) (bitDepth : Nat) (path : Key) (st : Subtree) (right : Bool)
       (p : SubtreePointer) (st2 : Subtree),
      doGetPath ctx ptr bitDepth path none st right = .ok (p, st2) →
      (st2.entries = st.entries ∧ p = ⟨InvalidSubtreeIndex, false, true⟩) ∨
      (∃ nd, ptr = .node nd ∧ st2.entries = st.entries ++ [.fullNode nd] ∧
        p = ⟨st.entries.length, true, true⟩)) ∧
    (∀ (ctx : Ctx) (t : Cache) (root : Root) (key : Key) (st2 : Subtree),
      wf t.pendingRoot = true →
      GetPath ctx t root key 0 = .ok st2 →
      numSummaries st2.entries = onPathBranchPoints t.pendingRoot 0 key) := by
  refine ⟨doGetPath_offpath, fun ctx t root key st2 hwf h => ?_⟩
  have hder : derefNodeID ctx t ⟨key, 0⟩ = .ok (t.pendingRoot, 0) := by
    rw [derefNodeID]
    rw [derefWalk.eq_def]
    simp
  rw [GetPath] at h
  rw [hder] at h
  split at h
  all_goals try split at h
  all_goals try simp only [] at h
  all_goals try split at h
  all_goals try split at h
  all_goals first
    | exact Except.noConfusion h
    | (rename_i rootPtr stX hdo hval
       rw [Except.ok.injEq] at h
       have hcount := (doGetPath_count ctx t.pendingRoot 0 _ (some key) _ _ rootPtr stX hdo).2
         key rfl hwf
       rw [← h]
       simpa [numSummaries] using hcount)

/-- Witness for C10 on a concrete two-leaf tree, for both calls. -/
theorem c10_witness :
    (∃ st, GetSubtree ⟨false⟩
        ⟨⟨1, 2, 3⟩, true,
         .node (.internal [] 0 .nil (.node (.leaf [false] [1])) (.node (.leaf [true] [2])))⟩
        ⟨1, 2, 3⟩ ⟨[], 0⟩ 10 = .ok st ∧ entriesOk st.entries = true) ∧
    (∃ st, GetPath ⟨false⟩
        ⟨⟨1, 2, 3⟩, true,
         .node (.internal [] 0 .nil (.node (.leaf [false] [1])) (.node (.leaf [true] [2])))⟩
        ⟨1, 2, 3⟩ [true] 0 = .ok st ∧ entriesOk st.entries = true) :=
  ⟨⟨_, rfl, c10_postorder_indices.1 ⟨false⟩
      ⟨⟨1, 2, 3⟩, true,
       .node (.internal [] 0 .nil (.node (.leaf [false] [1])) (.node (.leaf [true] [2])))⟩
      ⟨1, 2, 3⟩ ⟨[], 0⟩ 10 _ rfl⟩,
   ⟨_, rfl, c10_postorder_indices.2 ⟨false⟩
      ⟨⟨1, 2, 3⟩, true,
       .node (.internal [] 0 .nil (.node (.leaf [false] [1])) (.node (.leaf [true] [2])))⟩
      ⟨1, 2, 3⟩ [true] 0 _ rfl⟩⟩

/-- Witness for C5: an off-path leaf emitted as a full node, and the summary
count on a concrete two-leaf tree. -/
theorem c5_witness :
    (((⟨⟨0, false, false⟩, [.fullNode (.leaf [true] [9])]⟩ : Subtree).entries =
        (⟨⟨0, false, false⟩, []⟩ : Subtree).entries ∧
      (⟨0, true, true⟩ : SubtreePointer) = ⟨InvalidSubtreeIndex, false, true⟩) ∨
     (∃ nd, (Pointer.node (.leaf [true] [9])) = .node nd ∧
       (⟨⟨0, false, false⟩, [.fullNode (.leaf [true] [9])]⟩ : Subtree).entries =
         (⟨⟨0, false, false⟩, []⟩ : Subtree).entries ++ [.fullNode nd] ∧
       (⟨0, true, true⟩ : SubtreePointer) =
         ⟨(⟨⟨0, false, false⟩, []⟩ : Subtree).entries.length, true, true⟩)) ∧
    (∃ st, GetPath ⟨false⟩
        ⟨⟨1, 2, 3⟩, true,
         .node (.internal [] 0 .nil (.node (.leaf [false] [1])) (.node (.leaf [true] [2])))⟩
        ⟨1, 2, 3⟩ [true] 0 = .ok st ∧
      numSummaries st.entries =
        onPathBranchPoints
          (.node (.internal [] 0 .nil (.node (.leaf [false] [1])) (.node (.leaf [true] [2]))))
          0 [true]) :=
  ⟨c5_path_minimality.1 ⟨false⟩ (.node (.leaf [true] [9])) 0 [] ⟨⟨0, false, false⟩, []⟩ false
     ⟨0, true, true⟩ ⟨⟨0, false, false⟩, [.fullNode (.leaf [true] [9])]⟩ rfl,
   ⟨_, rfl, c5_path_minimality.2 ⟨false⟩
      ⟨⟨1, 2, 3⟩, true,
       .node (.internal [] 0 .nil (.node (.leaf [false] [1])) (.node (.leaf [true] [2])))⟩
      ⟨1, 2, 3⟩ [true] _ (by decide) rfl⟩⟩

end Urkel
